import Mathlib

/-!
Shallow embedding of the `mtj8/pagerank` repository (files `src/pagerank.py`
and `src/crawl.py`) and proofs about the claims of its specification.

Modelling conventions:
* Python floats are modelled as exact rationals (`ℚ`); arithmetic that the
  source performs with `numpy` floats is performed exactly here, so the
  "within floating-point tolerance" parts of the claims become exact
  equalities.
* A numpy `(n, 1)` vector is modelled as a function `Nat → ℚ` together with
  its length `n`; an `(n, n)` matrix as `Nat → Nat → ℚ`.  All observations
  (sums, norms, returned entries) are restricted to indices `< n`, matching
  the fact that the numpy arrays simply have no entries beyond their shape.
* Python dictionaries / sets over URLs are modelled with lists of `String`
  and association lists, under the distinctness hypotheses stated by the
  claims.
-/

/-- Constant `DAMPING_FACTOR = 0.85` of `src/pagerank.py` (0.85 = 17/20 exactly). -/
def DAMPING_FACTOR : ℚ := 17 / 20

/-- Matrix–vector product `A @ R` of an `n × n` matrix with a length-`n` vector:
entry `i` is `∑ j < n, A[i][j] * R[j]`. -/
def matVecMul (n : Nat) (A : Nat → Nat → ℚ) (R : Nat → ℚ) : Nat → ℚ :=
  fun i => ∑ j ∈ Finset.range n, A i j * R j

/-- The L1 norm `np.linalg.norm(x - y, 1)` of the difference of two length-`n`
vectors. -/
def l1dist (n : Nat) (x y : Nat → ℚ) : ℚ :=
  ∑ i ∈ Finset.range n, |x i - y i|

/-- The uniform "random surfer" vector `E = [[1/n] for _ in range(n)]` of
`page_rank`.  For `n = 0` the Python list comprehension is empty and `1/n` is
never evaluated; here `1/0 = 0` in `ℚ` and no index `< 0` exists, so the
vector is empty in both models. -/
def uniformE (n : Nat) : Nat → ℚ :=
  fun _ => 1 / (n : ℚ)

/-- One update `R_new = DAMPING_FACTOR * A @ R + (1 - DAMPING_FACTOR) * E` of
the loop body of `page_rank` (`src/pagerank.py`, line 32). -/
def pr_step (n : Nat) (A : Nat → Nat → ℚ) (R : Nat → ℚ) : Nat → ℚ :=
  fun i => DAMPING_FACTOR * matVecMul n A R i + (1 - DAMPING_FACTOR) * uniformE n i

/-- The `for iter in range(max_iters)` loop of `page_rank` (lines 31–39),
recursing on the number of remaining iterations.  When the convergence test
`delta < eps` fires the Python code executes `break` *before* the assignment
`R = R_new`, so the function returns the current `R`, not `R_new`; when the
iteration budget is exhausted it returns the last assigned `R`. -/
def pr_loop (n : Nat) (A : Nat → Nat → ℚ) (eps : ℚ) : Nat → (Nat → ℚ) → (Nat → ℚ)
  | 0, R => R
  | iters + 1, R =>
    let R_new := pr_step n A R
    if l1dist n R_new R < eps then R
    else pr_loop n A eps iters R_new

/-- Function `page_rank(A, eps, max_iters)` of `src/pagerank.py`: starts from
the uniform vector and runs the damped power-iteration loop. -/
def page_rank (n : Nat) (A : Nat → Nat → ℚ) (eps : ℚ) (max_iters : Nat) : Nat → ℚ :=
  pr_loop n A eps max_iters (uniformE n)

/-- Observer on the loop of `page_rank`: identical iteration structure, but
also records which exit was taken — `true` iff the run left the loop through
the `delta < eps` break (convergence), `false` iff it exhausted `max_iters`.
The source returns a bare vector; this instrumented copy exists so that
claims about the terminal condition can be stated. -/
def pr_loopFlag (n : Nat) (A : Nat → Nat → ℚ) (eps : ℚ) :
    Nat → (Nat → ℚ) → ((Nat → ℚ) × Bool)
  | 0, R => (R, false)
  | iters + 1, R =>
    let R_new := pr_step n A R
    if l1dist n R_new R < eps then (R, true)
    else pr_loopFlag n A eps iters R_new

/-- Whether a run of `page_rank` terminated through the convergence break
(`true`) or by exhausting `max_iters` (`false`). -/
def page_rank_converged (n : Nat) (A : Nat → Nat → ℚ) (eps : ℚ) (max_iters : Nat) : Bool :=
  (pr_loopFlag n A eps max_iters (uniformE n)).2

/-- Modelled from the spec: the solver loop as §4.5 words it — "Convergence
test: L1 norm of (R_next − R) < eps → stop and return R_next".  Identical to
`pr_loop` except that on convergence it returns the freshly computed `R_new`.
Used only to compare the source's behaviour with the spec's words. -/
def pr_loop_specReturn (n : Nat) (A : Nat → Nat → ℚ) (eps : ℚ) :
    Nat → (Nat → ℚ) → (Nat → ℚ)
  | 0, R => R
  | iters + 1, R =>
    let R_new := pr_step n A R
    if l1dist n R_new R < eps then R_new
    else pr_loop_specReturn n A eps iters R_new

/-- Modelled from the spec: `page_rank` as §4.5 describes it, returning
`R_next` on convergence. -/
def page_rank_specReturn (n : Nat) (A : Nat → Nat → ℚ) (eps : ℚ) (max_iters : Nat) :
    Nat → ℚ :=
  pr_loop_specReturn n A eps max_iters (uniformE n)

/-- A page record of the crawl-results JSON consumed by
`build_adjacency_matrix`: `{url, outgoing_links}` (the serialized
`num_outgoing_links` field is derived data the normalizer never reads). -/
structure PageRec where
  url : String
  outgoing_links : List String
  deriving DecidableEq

/-- The visited set `{page['url'] for page in pages}` of
`build_adjacency_matrix`, kept as the list of URLs in page order. -/
def visitedUrls (pages : List PageRec) : List String :=
  pages.map PageRec.url

/-- Dictionary `url_to_index = {page['url']: idx for idx, page in
enumerate(pages)}`: under the distinct-URL hypothesis of the claims each page
URL is mapped to its position in `pages`, which `List.indexOf` computes. -/
def url_to_index (pages : List PageRec) (u : String) : Nat :=
  (visitedUrls pages).indexOf u

/-- Dictionary `index_to_url = {idx: url for url, idx in
url_to_index.items()}`: position `i` maps to the `i`-th page's URL; lookups
outside `0..n-1` have no entry (`none`). -/
def index_to_url (pages : List PageRec) (i : Nat) : Option String :=
  (visitedUrls pages).get? i

/-- Filtered outgoing links of one page record (`src/pagerank.py` lines
78–79): `[link for link in page['outgoing_links'] if link in visited_urls and
link != source_url]`. -/
def filteredLinks (pages : List PageRec) (p : PageRec) : List String :=
  p.outgoing_links.filter (fun link => (visitedUrls pages).contains link && link != p.url)

/-- Single numpy store `A[i][j] = v` on a matrix modelled as a function. -/
def writeEntry (A : Nat → Nat → ℚ) (i j : Nat) (v : ℚ) : Nat → Nat → ℚ :=
  fun r c => if r = i ∧ c = j then v else A r c

/-- Numpy column store `A[:, j] = v` on an `n × n` matrix. -/
def writeColumn (n : Nat) (A : Nat → Nat → ℚ) (j : Nat) (v : ℚ) : Nat → Nat → ℚ :=
  fun r c => if c = j ∧ r < n then v else A r c

/-- Body of the `for page in pages` loop of `build_adjacency_matrix` (lines
73–90): writes `1/out_degree` at each filtered target of the page's column,
or fills the whole column with `1/n` for a dangling page. -/
def processPage (pages : List PageRec) (A : Nat → Nat → ℚ) (p : PageRec) : Nat → Nat → ℚ :=
  let source_idx := url_to_index pages p.url
  let outgoing := filteredLinks pages p
  let out_degree := outgoing.length
  if 0 < out_degree then
    outgoing.foldl
      (fun B target => writeEntry B (url_to_index pages target) source_idx (1 / (out_degree : ℚ)))
      A
  else
    writeColumn pages.length A source_idx (1 / (pages.length : ℚ))

/-- Matrix output of `build_adjacency_matrix` (`src/pagerank.py` lines
57–92): start from `np.zeros((n, n))` and process every page record. -/
def build_adjacency_matrix (pages : List PageRec) : Nat → Nat → ℚ :=
  pages.foldl (processPage pages) (fun _ _ => 0)

/-- Direct description of the column that `build_adjacency_matrix` builds for
the page record `p`: row `i` holds `1/out_degree` when `i` is the index of a
filtered target, `0` otherwise; for a dangling page every row `< n` holds
`1/n`. -/
def colEntry (pages : List PageRec) (p : PageRec) (i : Nat) : ℚ :=
  let outgoing := filteredLinks pages p
  if 0 < outgoing.length then
    if i ∈ outgoing.map (url_to_index pages) then 1 / (outgoing.length : ℚ) else 0
  else
    if i < pages.length then 1 / (pages.length : ℚ) else 0

/-- Well-formedness of a crawl record as serialized by
`WebCrawler.save_results_json`: page URLs are pairwise distinct (the claims'
hypothesis) and each `outgoing_links` list is duplicate-free (it is written
as the sorted list of a Python set). -/
def WellFormedRecord (pages : List PageRec) : Prop :=
  (visitedUrls pages).Nodup ∧ ∀ p ∈ pages, p.outgoing_links.Nodup

/-- Column-stochastic matrix (spec glossary): entries are non-negative and
every column of the `n × n` block sums to 1 — "interpretable as a probability
transition". -/
def ColumnStochastic (n : Nat) (A : Nat → Nat → ℚ) : Prop :=
  (∀ i j, i < n → j < n → 0 ≤ A i j) ∧
  (∀ j, j < n → ∑ i ∈ Finset.range n, A i j = 1)

/-- Characters Python's `urllib.parse` accepts inside a URL scheme after the
leading letter: letters, digits, `+`, `-` and `.`. -/
def isSchemeChar (c : Char) : Bool :=
  c.isAlphanum || c == '+' || c == '-' || c == '.'

/-- Splits a character list at its first `:`; `none` when there is no colon. -/
def splitColon : List Char → Option (List Char × List Char)
  | [] => none
  | c :: cs =>
    if c = ':' then some ([], cs)
    else
      match splitColon cs with
      | some (a, b) => some (c :: a, b)
      | none => none

/-- Whether a candidate scheme is valid for `urllib.parse`: non-empty, starts
with a letter, and contains only scheme characters. -/
def validScheme (cs : List Char) : Bool :=
  match cs with
  | [] => false
  | c :: rest => c.isAlpha && rest.all isSchemeChar

/-- Network-authority component of the remainder of a URL: present exactly
when the remainder starts with `//`, and extends to the next `/`, `?` or `#`. -/
def netlocOf (cs : List Char) : String :=
  match cs with
  | '/' :: '/' :: rest =>
    String.mk (rest.takeWhile (fun c => !(c == '/' || c == '?' || c == '#')))
  | _ => ""

/-- The two fields of a parsed URL that `is_valid_url` reads. -/
structure ParseResult where
  scheme : String
  netloc : String
  deriving DecidableEq

/-- Characters CPython's `urlsplit` deletes anywhere in its input before
parsing: tab, carriage return and line feed. -/
def isUnsafeUrlChar (c : Char) : Bool :=
  c == '\t' || c == '\r' || c == '\n'

/-- Leading characters CPython's `urlsplit` strips before parsing: C0
control characters and the space (code points 0x00 to 0x20). -/
def isC0ControlOrSpace (c : Char) : Bool :=
  c.toNat ≤ 32

/-- Preprocessing CPython's `urlsplit` applies to its input: strip leading
C0 controls and spaces, then delete every tab, CR and LF. -/
def pyUrlPreprocess (cs : List Char) : List Char :=
  (cs.dropWhile isC0ControlOrSpace).filter (fun c => !(isUnsafeUrlChar c))

/-- Whether an authority contains `[` without `]` or `]` without `[` — the
condition on which CPython's `urlsplit` raises
`ValueError("Invalid IPv6 URL")`. -/
def bracketMismatch (netloc : List Char) : Bool :=
  (netloc.contains '[' && !(netloc.contains ']')) ||
  (netloc.contains ']' && !(netloc.contains '['))

/-- Modelled from the library boundary: Python's `urllib.parse.urlparse` (an
external collaborator of `src/crawl.py`), restricted to the `scheme` and
`netloc` fields that `is_valid_url` reads, and including its error
behaviour.  The input is preprocessed as CPython does; a scheme is
recognised when a colon is present and the text before it is a valid scheme
(then lowercased), otherwise the whole string is the remainder; the netloc
is the authority after a leading `//` of the remainder; a
bracket-mismatched authority raises `ValueError("Invalid IPv6 URL")`,
modelled as `Except.error`.  (CPython additionally validates a fully
bracketed host as an IP address; no claim depends on inputs of that
shape.) -/
def urlparse (s : String) : Except String ParseResult :=
  let cs := pyUrlPreprocess s.toList
  let sr :=
    match splitColon cs with
    | some (before, after) =>
      if validScheme before then (String.mk (before.map Char.toLower), after)
      else (("" : String), cs)
    | none => (("" : String), cs)
  match sr.2 with
  | '/' :: '/' :: rest2 =>
    let netlocChars := rest2.takeWhile (fun c => !(c == '/' || c == '?' || c == '#'))
    if bracketMismatch netlocChars then Except.error "Invalid IPv6 URL"
    else Except.ok ⟨sr.1, String.mk netlocChars⟩
  | _ => Except.ok ⟨sr.1, ""⟩

/-- Method `WebCrawler.is_valid_url` (`src/crawl.py` lines 38–42):
`parsed = urlparse(url)` followed by
`parsed.netloc == base_domain and parsed.scheme in ['http', 'https']`.
The method installs no exception handler, so a `ValueError` raised by
`urlparse` propagates to the caller — modelled by mapping the Boolean
classification over the `Except` result. -/
def is_valid_url (url : String) (base_domain : String) : Except String Bool :=
  (urlparse url).map (fun parsed =>
    parsed.netloc == base_domain &&
      (parsed.scheme == "http" || parsed.scheme == "https"))

/-- Total approximation of `urlparse` (no preprocessing and no error paths)
retained for the crawl-loop embedding, whose claim needs only that link
classification is a deterministic function of the URL and the base domain;
it agrees with the faithful model wherever the latter does not raise and
the input needs no preprocessing.  The classifier's own claim is settled
against the faithful fallible model above. -/
def urlparseTotal (s : String) : ParseResult :=
  let cs := s.toList
  match splitColon cs with
  | some (before, after) =>
    if validScheme before then
      ⟨String.mk (before.map Char.toLower), netlocOf after⟩
    else ⟨"", netlocOf cs⟩
  | none => ⟨"", netlocOf cs⟩

/-- The Boolean classification of `is_valid_url` over the error-free
approximation `urlparseTotal`, used inside the crawl-loop embedding. -/
def is_valid_url_noRaise (url : String) (base_domain : String) : Bool :=
  (urlparseTotal url).netloc == base_domain &&
    ((urlparseTotal url).scheme == "http" || (urlparseTotal url).scheme == "https")

/-- Insert a string into a sorted list, keeping lexicographic order. -/
def insertSorted (x : String) : List String → List String
  | [] => [x]
  | y :: ys => if x ≤ y then x :: y :: ys else y :: insertSorted x ys

/-- Insertion sort by lexicographic order, modelling Python's
`valid_links.sort()` (`src/crawl.py` line 128). -/
def sortUrls : List String → List String
  | [] => []
  | x :: xs => insertSorted x (sortUrls xs)

/-- Swap the entries at positions `i` and `j` of a list. -/
def swapAt (l : List String) (i j : Nat) : List String :=
  let vi := l.getD i ""
  let vj := l.getD j ""
  (l.set i vj).set j vi

/-- Modelled from the spec (§4.3, §9): the explicitly seeded deterministic
pseudo-random source driving the shuffle — a linear congruential generator
standing in for Python's `random.Random(random_seed)` (an external library
whose exact stream is not part of the repository); the claims depend only on
the stream being a deterministic function of the seed.  Fisher–Yates over the
sorted candidate list, as §9 prescribes: at step `k+1` the element at
position `k+1` is swapped with a pseudo-randomly chosen position `≤ k+1`. -/
def fyAux : Nat → List String → Nat → List String × Nat
  | state, l, 0 => (l, state)
  | state, l, k + 1 =>
    let r := (state * 1103515245 + 12345) % 2147483648
    let j := r % (k + 2)
    fyAux r (swapAt l (k + 1) j) k

/-- Seeded shuffle `self.rng.shuffle(valid_links)` (`src/crawl.py` line 129):
Fisher–Yates over the list, returning the permuted list and the advanced
generator state. -/
def shuffleLinks (state : Nat) (l : List String) : List String × Nat :=
  fyAux state l (l.length - 1)

/-- Result of a crawl: the URLs in visitation order (the visited set together
with the traversal sequence) and the recorded link graph, an association list
from each visited URL to its filtered outgoing-link set (stored sorted, the
canonical form in which `save_results_json` serializes the Python set). -/
structure CrawlResult where
  visitedOrder : List String
  links : List (String × List String)
  deriving DecidableEq

/-- The `while queue and len(self.visited) < self.max_pages` loop of
`WebCrawler.crawl` (`src/crawl.py` lines 112–145).  `getLinks` is the mocked
link extractor standing in for `WebCrawler.get_links` (network + HTML
parsing, an external collaborator); its result is deduplicated because the
Python method returns a set.  A popped URL is skipped when already visited or
beyond `max_depth`; otherwise it is marked visited, its in-scope links are
filtered with `is_valid_url` against the seed's domain, sorted, shuffled with
the seeded generator, recorded in the link graph (the full filtered set, not
the shuffle order), and the not-yet-visited ones are enqueued at `depth+1`. -/
def crawlLoop (base : String) (max_pages max_depth : Nat)
    (getLinks : String → List String) :
    List (String × Nat) → List String → List (String × List String) → Nat → CrawlResult
  | [], visited, links, _ => ⟨visited, links⟩
  | (url, depth) :: rest, visited, links, rng =>
    if _hfull : max_pages ≤ visited.length then ⟨visited, links⟩
    else if url ∈ visited ∨ max_depth < depth then
      crawlLoop base max_pages max_depth getLinks rest visited links rng
    else
      let valid_links := sortUrls (((getLinks url).dedup).filter (fun x => is_valid_url_noRaise x base))
      let sh := shuffleLinks rng valid_links
      let visited2 := visited ++ [url]
      let links2 := links ++ [(url, valid_links)]
      let queue2 := rest ++ (sh.1.filter (fun x => x ∉ visited2)).map (fun x => (x, depth + 1))
      crawlLoop base max_pages max_depth getLinks queue2 visited2 links2 sh.2
  termination_by queue visited _ _ => (max_pages - visited.length, queue.length)
  decreasing_by
  · apply Prod.Lex.right
    simp
  · apply Prod.Lex.left
    simp only [List.length_append, List.length_singleton]
    omega

/-- Method `WebCrawler.crawl` (`src/crawl.py` lines 100–149): breadth-first
crawl from `[(seed_url, 0)]` with the seed's netloc as base domain, starting
from an empty visited set, an empty link graph and the seeded generator. -/
def crawl (seed_url : String) (max_pages max_depth random_seed : Nat)
    (getLinks : String → List String) : CrawlResult :=
  crawlLoop (urlparseTotal seed_url).netloc max_pages max_depth getLinks
    [(seed_url, 0)] [] [] random_seed

/-- Concrete 2-page record used by witnesses: page `a` links to `b`, to
itself and to an out-of-set URL; page `b` has no links. -/
def exPages : List PageRec :=
  [⟨"http://e.com/a", ["http://e.com/a", "http://e.com/b", "http://x.org/z"]⟩,
   ⟨"http://e.com/b", []⟩]

/-- Concrete 2×2 column-stochastic matrix `[[1, 1/2], [0, 1/2]]` used by the
counterexamples: its power iteration converges geometrically, so a run with a
moderate `eps` breaks with a non-zero final delta. -/
def exA2 : Nat → Nat → ℚ := fun i j =>
  if i = 0 ∧ j = 0 then 1
  else if i = 0 ∧ j = 1 then 1/2
  else if i = 1 ∧ j = 1 then 1/2
  else 0

/-- Concrete 1×1 column-stochastic matrix `[[1]]` used by witnesses. -/
def exA1 : Nat → Nat → ℚ := fun i j =>
  if i = 0 ∧ j = 0 then 1 else 0

lemma foldl_writeEntry_ne (c : Nat) (v : ℚ) (f : String → Nat) (l : List String)
    (A : Nat → Nat → ℚ) (i j : Nat) (h : j ≠ c) :
    (l.foldl (fun B target => writeEntry B (f target) c v) A) i j = A i j := by
  induction l generalizing A with
  | nil => rfl
  | cons t rest ih =>
    simp only [List.foldl_cons]
    rw [ih]
    simp [writeEntry, h]

lemma foldl_writeEntry_col (c : Nat) (v : ℚ) (f : String → Nat) (l : List String)
    (A : Nat → Nat → ℚ) (i : Nat) :
    (l.foldl (fun B target => writeEntry B (f target) c v) A) i c =
      if i ∈ l.map f then v else A i c := by
  induction l generalizing A with
  | nil => simp
  | cons t rest ih =>
    simp only [List.foldl_cons, List.map_cons, List.mem_cons]
    rw [ih]
    by_cases hr : i ∈ rest.map f
    · simp [hr]
    · by_cases hit : i = f t
      · simp [hr, hit, writeEntry]
      · simp [hr, hit, writeEntry]

lemma processPage_ne (pages : List PageRec) (A : Nat → Nat → ℚ) (p : PageRec)
    (i j : Nat) (h : j ≠ url_to_index pages p.url) :
    processPage pages A p i j = A i j := by
  simp only [processPage]
  by_cases hd : 0 < (filteredLinks pages p).length
  · rw [if_pos hd]
    exact foldl_writeEntry_ne _ _ _ _ _ _ _ h
  · rw [if_neg hd]
    simp [writeColumn, h]

lemma foldl_processPage_other (pages l : List PageRec) (A : Nat → Nat → ℚ)
    (i j : Nat) (h : ∀ p ∈ l, url_to_index pages p.url ≠ j) :
    (l.foldl (processPage pages) A) i j = A i j := by
  induction l generalizing A with
  | nil => rfl
  | cons q rest ih =>
    simp only [List.foldl_cons]
    rw [ih _ fun p hp => h p (List.mem_cons_of_mem _ hp)]
    exact processPage_ne pages A q i j (Ne.symm (h q (List.mem_cons_self _ _)))

lemma processPage_own_col (pages : List PageRec) (A : Nat → Nat → ℚ) (p : PageRec) (i : Nat) :
    processPage pages A p i (url_to_index pages p.url) =
      if 0 < (filteredLinks pages p).length then
        (if i ∈ (filteredLinks pages p).map (url_to_index pages)
          then 1 / ((filteredLinks pages p).length : ℚ)
          else A i (url_to_index pages p.url))
      else
        (if i < pages.length then 1 / (pages.length : ℚ)
          else A i (url_to_index pages p.url)) := by
  simp only [processPage]
  by_cases hd : 0 < (filteredLinks pages p).length
  · rw [if_pos hd, if_pos hd, foldl_writeEntry_col]
  · rw [if_neg hd, if_neg hd]
    simp [writeColumn]

lemma url_to_index_ne_of_split (l1 l2 : List PageRec) (p : PageRec)
    (hnd : (visitedUrls (l1 ++ p :: l2)).Nodup)
    (q : PageRec) (hq : q ∈ l1 ∨ q ∈ l2) :
    url_to_index (l1 ++ p :: l2) q.url ≠ url_to_index (l1 ++ p :: l2) p.url := by
  intro heq
  have hqmem : q.url ∈ visitedUrls (l1 ++ p :: l2) := by
    rcases hq with hq | hq
    · exact List.mem_map_of_mem PageRec.url (List.mem_append_left _ hq)
    · exact List.mem_map_of_mem PageRec.url
        (List.mem_append_right _ (List.mem_cons_of_mem _ hq))
  have hpmem : p.url ∈ visitedUrls (l1 ++ p :: l2) :=
    List.mem_map_of_mem PageRec.url (List.mem_append_right _ (List.mem_cons_self _ _))
  have hurl : q.url = p.url := (List.indexOf_inj hqmem hpmem).1 heq
  have hshape : visitedUrls (l1 ++ p :: l2) =
      l1.map PageRec.url ++ p.url :: l2.map PageRec.url := by
    simp [visitedUrls]
  rw [hshape] at hnd
  rcases List.nodup_append.1 hnd with ⟨-, hnd2, hdisj⟩
  rcases hq with hq | hq
  · exact hdisj (hurl ▸ List.mem_map_of_mem PageRec.url hq) (List.mem_cons_self _ _)
  · exact (List.nodup_cons.1 hnd2).1 (hurl ▸ List.mem_map_of_mem PageRec.url hq)

lemma build_matrix_apply (pages : List PageRec) (hnd : (visitedUrls pages).Nodup)
    (p : PageRec) (hp : p ∈ pages) (i : Nat) :
    build_adjacency_matrix pages i (url_to_index pages p.url) = colEntry pages p i := by
  obtain ⟨l1, l2, hs⟩ := List.append_of_mem hp
  subst hs
  rw [build_adjacency_matrix, List.foldl_append, List.foldl_cons]
  rw [foldl_processPage_other _ l2 _ i _
    (fun q hq => url_to_index_ne_of_split l1 l2 p hnd q (Or.inr hq))]
  rw [processPage_own_col]
  rw [foldl_processPage_other _ l1 _ i _
    (fun q hq => url_to_index_ne_of_split l1 l2 p hnd q (Or.inl hq))]
  simp only [colEntry]

lemma url_to_index_get (pages : List PageRec) (hnd : (visitedUrls pages).Nodup)
    (j : Nat) (hj : j < pages.length) :
    url_to_index pages ((pages.get ⟨j, hj⟩).url) = j := by
  have hlen : j < (visitedUrls pages).length := by simpa [visitedUrls] using hj
  have hurl : (visitedUrls pages).get ⟨j, hlen⟩ = (pages.get ⟨j, hj⟩).url := by
    simp [visitedUrls]
  rw [url_to_index, ← hurl]
  exact List.get_indexOf hnd _

lemma mem_of_mem_filteredLinks (pages : List PageRec) (p : PageRec) (x : String)
    (hx : x ∈ filteredLinks pages p) : x ∈ visitedUrls pages ∧ x ≠ p.url := by
  have h := List.mem_filter.1 hx
  rcases Bool.and_eq_true_iff.mp h.2 with ⟨h1, h2⟩
  refine ⟨by simpa using h1, by simpa using h2⟩

lemma target_index_lt (pages : List PageRec) (p : PageRec) (x : String)
    (hx : x ∈ filteredLinks pages p) : url_to_index pages x < pages.length := by
  have hmem := (mem_of_mem_filteredLinks pages p x hx).1
  have := List.indexOf_lt_length.2 hmem
  simpa [url_to_index, visitedUrls] using this

lemma nodup_target_indices (pages : List PageRec) (p : PageRec)
    (hout : p.outgoing_links.Nodup) :
    ((filteredLinks pages p).map (url_to_index pages)).Nodup := by
  refine List.Nodup.map_on ?_ (hout.filter _)
  intro x hx y hy hxy
  exact (List.indexOf_inj (mem_of_mem_filteredLinks pages p x hx).1
    (mem_of_mem_filteredLinks pages p y hy).1).1 hxy

/-- C3: for every well-formed crawl record with `N ≥ 1` pages having distinct
URLs (outgoing link lists may contain URLs outside the page set and may
mention the source itself), every column of the matrix returned by
`build_adjacency_matrix` sums to 1 — exactly, in the rational model, hence in
particular within floating-point tolerance. -/
theorem C3_every_column_sums_to_one (pages : List PageRec)
    (hwf : WellFormedRecord pages) (hn : 1 ≤ pages.length)
    (j : Nat) (hj : j < pages.length) :
    ∑ i ∈ Finset.range pages.length, build_adjacency_matrix pages i j = 1 := by
  obtain ⟨hnd, hout⟩ := hwf
  have hpj := url_to_index_get pages hnd j hj
  have hcol : ∀ i, build_adjacency_matrix pages i j =
      colEntry pages (pages.get ⟨j, hj⟩) i := by
    intro i
    have h := build_matrix_apply pages hnd _ (List.get_mem pages j hj) i
    rw [hpj] at h
    exact h
  rw [Finset.sum_congr rfl fun i _ => hcol i]
  by_cases hd : 0 < (filteredLinks pages (pages.get ⟨j, hj⟩)).length
  · have hterm : ∀ i, colEntry pages (pages.get ⟨j, hj⟩) i =
        if i ∈ ((filteredLinks pages (pages.get ⟨j, hj⟩)).map (url_to_index pages)).toFinset
          then 1 / ((filteredLinks pages (pages.get ⟨j, hj⟩)).length : ℚ) else 0 := by
      intro i
      simp only [colEntry, if_pos hd, List.mem_toFinset]
    rw [Finset.sum_congr rfl fun i _ => hterm i, Finset.sum_ite_mem]
    have hsub : ((filteredLinks pages (pages.get ⟨j, hj⟩)).map
        (url_to_index pages)).toFinset ⊆ Finset.range pages.length := by
      intro i hi
      rw [List.mem_toFinset, List.mem_map] at hi
      obtain ⟨x, hx, rfl⟩ := hi
      exact Finset.mem_range.2 (target_index_lt pages _ x hx)
    rw [Finset.inter_eq_right.2 hsub, Finset.sum_const,
      List.toFinset_card_of_nodup
        (nodup_target_indices pages _ (hout _ (List.get_mem _ _ _))),
      List.length_map]
    rw [nsmul_eq_mul, one_div, mul_inv_cancel₀]
    exact Nat.cast_ne_zero.2 (by omega)
  · have hterm : ∀ i ∈ Finset.range pages.length,
        colEntry pages (pages.get ⟨j, hj⟩) i = 1 / (pages.length : ℚ) := by
      intro i hi
      simp only [colEntry, if_neg hd, if_pos (Finset.mem_range.1 hi)]
    rw [Finset.sum_congr rfl hterm, Finset.sum_const, Finset.card_range,
      nsmul_eq_mul, one_div, mul_inv_cancel₀]
    exact Nat.cast_ne_zero.2 (by omega)

lemma pr_loop_succ_break (n : Nat) (A : Nat → Nat → ℚ) (eps : ℚ) (m : Nat) (R : Nat → ℚ)
    (h : l1dist n (pr_step n A R) R < eps) :
    pr_loop n A eps (m + 1) R = R := by
  rw [pr_loop]
  simp only [if_pos h]

lemma pr_loop_succ_go (n : Nat) (A : Nat → Nat → ℚ) (eps : ℚ) (m : Nat) (R : Nat → ℚ)
    (h : ¬ l1dist n (pr_step n A R) R < eps) :
    pr_loop n A eps (m + 1) R = pr_loop n A eps m (pr_step n A R) := by
  rw [pr_loop]
  simp only [if_neg h]

lemma pr_step_nonneg (n : Nat) (A : Nat → Nat → ℚ) (R : Nat → ℚ)
    (hA : ColumnStochastic n A) (hR : ∀ j, j < n → 0 ≤ R j) :
    ∀ i, i < n → 0 ≤ pr_step n A R i := by
  intro i hi
  have h1 : 0 ≤ matVecMul n A R i := by
    refine Finset.sum_nonneg fun j hj => ?_
    exact mul_nonneg (hA.1 i j hi (Finset.mem_range.1 hj)) (hR j (Finset.mem_range.1 hj))
  have h2 : (0:ℚ) ≤ uniformE n i := by
    unfold uniformE
    positivity
  refine add_nonneg (mul_nonneg ?_ h1) (mul_nonneg ?_ h2)
  · norm_num [DAMPING_FACTOR]
  · norm_num [DAMPING_FACTOR]

lemma pr_step_sum (n : Nat) (A : Nat → Nat → ℚ) (R : Nat → ℚ)
    (hA : ColumnStochastic n A) (hn : 1 ≤ n)
    (hR : ∑ j ∈ Finset.range n, R j = 1) :
    ∑ i ∈ Finset.range n, pr_step n A R i = 1 := by
  unfold pr_step
  rw [Finset.sum_add_distrib]
  have hAR : ∑ i ∈ Finset.range n, DAMPING_FACTOR * matVecMul n A R i = DAMPING_FACTOR := by
    rw [← Finset.mul_sum]
    unfold matVecMul
    rw [Finset.sum_comm]
    have hinner : ∀ j ∈ Finset.range n, ∑ i ∈ Finset.range n, A i j * R j = R j := by
      intro j hj
      rw [← Finset.sum_mul, hA.2 j (Finset.mem_range.1 hj), one_mul]
    rw [Finset.sum_congr rfl hinner, hR, mul_one]
  have hE : ∑ i ∈ Finset.range n, (1 - DAMPING_FACTOR) * uniformE n i =
      1 - DAMPING_FACTOR := by
    unfold uniformE
    rw [Finset.sum_const, Finset.card_range, nsmul_eq_mul]
    have hn0 : (n:ℚ) ≠ 0 := Nat.cast_ne_zero.2 (by omega)
    field_simp
  rw [hAR, hE]
  ring

lemma pr_loop_inv (n : Nat) (A : Nat → Nat → ℚ) (eps : ℚ)
    (hA : ColumnStochastic n A) (hn : 1 ≤ n) :
    ∀ (k : Nat) (R : Nat → ℚ),
      (∀ j, j < n → 0 ≤ R j) → (∑ j ∈ Finset.range n, R j = 1) →
      (∀ j, j < n → 0 ≤ pr_loop n A eps k R j) ∧
        ∑ j ∈ Finset.range n, pr_loop n A eps k R j = 1 := by
  intro k
  induction k with
  | zero => intro R h1 h2; exact ⟨h1, h2⟩
  | succ m ih =>
    intro R h1 h2
    by_cases hlt : l1dist n (pr_step n A R) R < eps
    · rw [pr_loop_succ_break n A eps m R hlt]
      exact ⟨h1, h2⟩
    · rw [pr_loop_succ_go n A eps m R hlt]
      exact ih _ (pr_step_nonneg n A R hA h1) (pr_step_sum n A R hA hn h2)

lemma uniformE_nonneg (n : Nat) : ∀ j, j < n → 0 ≤ uniformE n j := by
  intro j _
  unfold uniformE
  positivity

lemma uniformE_sum (n : Nat) (hn : 1 ≤ n) :
    ∑ j ∈ Finset.range n, uniformE n j = 1 := by
  unfold uniformE
  rw [Finset.sum_const, Finset.card_range, nsmul_eq_mul]
  have hn0 : (n:ℚ) ≠ 0 := Nat.cast_ne_zero.2 (by omega)
  field_simp

/-- C6: for every column-stochastic `n × n` input matrix with `n ≥ 1` and the
source's damping factor 0.85, every entry of the vector returned by
`page_rank` is non-negative and the entries sum to 1 — exactly, in the
rational model. -/
theorem C6_result_nonneg_sums_to_one (n : Nat) (A : Nat → Nat → ℚ) (eps : ℚ)
    (max_iters : Nat) (hA : ColumnStochastic n A) (hn : 1 ≤ n) :
    (∀ i, i < n → 0 ≤ page_rank n A eps max_iters i) ∧
      ∑ i ∈ Finset.range n, page_rank n A eps max_iters i = 1 :=
  pr_loop_inv n A eps hA hn max_iters (uniformE n)
    (uniformE_nonneg n) (uniformE_sum n hn)

lemma pr_loopFlag_fst (n : Nat) (A : Nat → Nat → ℚ) (eps : ℚ) :
    ∀ (k : Nat) (R : Nat → ℚ), (pr_loopFlag n A eps k R).1 = pr_loop n A eps k R := by
  intro k
  induction k with
  | zero => intro R; rfl
  | succ m ih =>
    intro R
    rw [pr_loopFlag, pr_loop]
    by_cases hlt : l1dist n (pr_step n A R) R < eps
    · simp only [if_pos hlt]
    · simp only [if_neg hlt]
      exact ih _

lemma pr_loopFlag_true_fixed (n : Nat) (A : Nat → Nat → ℚ) (eps : ℚ) :
    ∀ (k : Nat) (R : Nat → ℚ), (pr_loopFlag n A eps k R).2 = true →
      l1dist n (pr_step n A (pr_loopFlag n A eps k R).1) (pr_loopFlag n A eps k R).1 < eps := by
  intro k
  induction k with
  | zero => intro R h; exact absurd h (by simp [pr_loopFlag])
  | succ m ih =>
    intro R h
    by_cases hlt : l1dist n (pr_step n A R) R < eps
    · rw [pr_loopFlag]
      simp only [if_pos hlt]
      exact hlt
    · rw [pr_loopFlag] at h ⊢
      simp only [if_neg hlt] at h ⊢
      exact ih _ h

/-- C9: for every column-stochastic matrix with `n ≥ 1`, if the run of
`page_rank` converged (the eps test fired before the iteration cap, observed
by `page_rank_converged`), the returned vector `R` is a fixed point up to
`eps`: one more update `DAMPING_FACTOR * (A · R) + (1 - DAMPING_FACTOR) * E`
moves it by less than `eps` in L1 norm. -/
theorem C9_converged_result_is_eps_fixed_point (n : Nat) (A : Nat → Nat → ℚ)
    (eps : ℚ) (max_iters : Nat) (hA : ColumnStochastic n A) (hn : 1 ≤ n)
    (hconv : page_rank_converged n A eps max_iters = true) :
    l1dist n (pr_step n A (page_rank n A eps max_iters))
      (page_rank n A eps max_iters) < eps := by
  have h := pr_loopFlag_true_fixed n A eps max_iters (uniformE n) hconv
  rw [pr_loopFlag_fst] at h
  exact h

lemma exA1_stochastic : ColumnStochastic 1 exA1 := by
  constructor
  · intro i j hi hj
    have hi0 : i = 0 := by omega
    have hj0 : j = 0 := by omega
    subst hi0; subst hj0
    norm_num [exA1]
  · intro j hj
    have hj0 : j = 0 := by omega
    subst hj0
    norm_num [Finset.sum_range_succ, exA1]

/-- C6 witness: the theorem applied to the 1×1 stochastic matrix `[[1]]`. -/
theorem C6_witness :
    ColumnStochastic 1 exA1 ∧ 1 ≤ 1 ∧
      ((∀ i, i < 1 → 0 ≤ page_rank 1 exA1 (1/2) 3 i) ∧
        ∑ i ∈ Finset.range 1, page_rank 1 exA1 (1/2) 3 i = 1) :=
  ⟨exA1_stochastic, le_refl 1,
    C6_result_nonneg_sums_to_one 1 exA1 (1/2) 3 exA1_stochastic (le_refl 1)⟩

lemma exA1_converges : page_rank_converged 1 exA1 1 1 = true := by
  norm_num [page_rank_converged, pr_loopFlag, pr_step, matVecMul, l1dist, uniformE,
    exA1, DAMPING_FACTOR, Finset.sum_range_succ, Finset.filter_singleton,
      Finset.card_singleton]

/-- C9 witness: the theorem applied to a converged run on `[[1]]`. -/
theorem C9_witness :
    ColumnStochastic 1 exA1 ∧ 1 ≤ 1 ∧ page_rank_converged 1 exA1 1 1 = true ∧
      l1dist 1 (pr_step 1 exA1 (page_rank 1 exA1 1 1)) (page_rank 1 exA1 1 1) < 1 :=
  ⟨exA1_stochastic, le_refl 1, exA1_converges,
    C9_converged_result_is_eps_fixed_point 1 exA1 1 1 exA1_stochastic (le_refl 1)
      exA1_converges⟩

/-- C1 counterexample: on the concrete matrix `exA2` with `eps = 3/10` the
run converges (the eps test fires at the second iteration), yet the vector
`page_rank` returns differs from the one the spec prescribes (`R_next`, as
computed by `page_rank_specReturn`): the source returns the previous vector. -/
theorem C1_counterexample_previous_vector_returned :
    page_rank_converged 2 exA2 (3/10) 5 = true ∧
      page_rank 2 exA2 (3/10) 5 0 ≠ page_rank_specReturn 2 exA2 (3/10) 5 0 := by
  constructor
  · norm_num [page_rank_converged, pr_loopFlag, pr_step, matVecMul, l1dist, uniformE,
      exA2, DAMPING_FACTOR, Finset.sum_range_succ, abs_of_nonneg, abs_of_nonpos]
  · norm_num [page_rank, page_rank_specReturn, pr_loop, pr_loop_specReturn, pr_step,
      matVecMul, l1dist, uniformE, exA2, DAMPING_FACTOR, Finset.sum_range_succ,
      abs_of_nonneg, abs_of_nonpos]

/-- C1 amended: if at some iteration the solver computes `R_next` from the
current vector `R` and the L1 norm of `R_next - R` is below `eps`, then the
solver stops at that iteration but returns the *current* vector `R` (the
newly computed `R_next` is discarded); the returned vector is within `eps`
of `R_next` in L1 norm. -/
theorem C1_amended_break_returns_current_vector (n : Nat) (A : Nat → Nat → ℚ)
    (eps : ℚ) (m : Nat) (R : Nat → ℚ)
    (h : l1dist n (pr_step n A R) R < eps) :
    pr_loop n A eps (m + 1) R = R ∧
      l1dist n (pr_step n A R) (pr_loop n A eps (m + 1) R) < eps := by
  have he := pr_loop_succ_break n A eps m R h
  exact ⟨he, by rw [he]; exact h⟩

/-- C1 witness: the amended theorem applied to `[[1]]` at its first
iteration. -/
theorem C1_witness :
    l1dist 1 (pr_step 1 exA1 (uniformE 1)) (uniformE 1) < 1 ∧
      (pr_loop 1 exA1 1 1 (uniformE 1) = uniformE 1 ∧
        l1dist 1 (pr_step 1 exA1 (uniformE 1)) (pr_loop 1 exA1 1 1 (uniformE 1)) < 1) := by
  have h : l1dist 1 (pr_step 1 exA1 (uniformE 1)) (uniformE 1) < 1 := by
    norm_num [pr_step, matVecMul, l1dist, uniformE, exA1, DAMPING_FACTOR,
      Finset.sum_range_succ, Finset.filter_singleton, Finset.card_singleton]
  exact ⟨h, C1_amended_break_returns_current_vector 1 exA1 1 0 (uniformE 1) h⟩

/-- C2 counterexample: on the 1×1 matrix `[[1]]`, the run with `eps = 1`
terminates through the convergence break and the run with `eps = 0` exhausts
the single-iteration cap, yet `page_rank` returns identical vectors — the
bare return value does not report which terminal condition occurred. -/
theorem C2_counterexample_conditions_conflated :
    page_rank_converged 1 exA1 1 1 = true ∧
      page_rank_converged 1 exA1 0 1 = false ∧
      page_rank 1 exA1 1 1 0 = page_rank 1 exA1 0 1 0 := by
  refine ⟨exA1_converges, ?_, ?_⟩
  · norm_num [page_rank_converged, pr_loopFlag, pr_step, matVecMul, l1dist, uniformE,
      exA1, DAMPING_FACTOR, Finset.sum_range_succ, Finset.filter_singleton,
      Finset.card_singleton]
  · norm_num [page_rank, pr_loop, pr_step, matVecMul, l1dist, uniformE,
      exA1, DAMPING_FACTOR, Finset.sum_range_succ, Finset.filter_singleton,
      Finset.card_singleton]

/-- C2 amended: the solver's return value is a bare vector that does not
report the terminal condition: there are runs of `page_rank` — one that
passed the convergence test and one that hit the `max_iters` cap — whose
returned vectors are identical on every entry of the result. -/
theorem C2_amended_terminal_condition_not_observable :
    ∃ (n : Nat) (A : Nat → Nat → ℚ) (eps1 eps2 : ℚ) (m : Nat),
      page_rank_converged n A eps1 m = true ∧
      page_rank_converged n A eps2 m = false ∧
      ∀ i, i < n → page_rank n A eps1 m i = page_rank n A eps2 m i := by
  refine ⟨1, exA1, 1, 0, 1, exA1_converges, ?_, ?_⟩
  · norm_num [page_rank_converged, pr_loopFlag, pr_step, matVecMul, l1dist, uniformE,
      exA1, DAMPING_FACTOR, Finset.sum_range_succ, Finset.filter_singleton,
      Finset.card_singleton]
  · intro i hi
    have hi0 : i = 0 := by omega
    subst hi0
    norm_num [page_rank, pr_loop, pr_step, matVecMul, l1dist, uniformE,
      exA1, DAMPING_FACTOR, Finset.sum_range_succ, Finset.filter_singleton,
      Finset.card_singleton]

/-- C7: with zero pages the normalizer returns the empty (all-zero) matrix;
the solver on an empty (`n = 0`) matrix breaks out of its loop at the first
iteration (the L1 norm over no entries is `0 < eps`) and returns the empty
vector — every entry reads the model's default `0`, and no division by zero
occurs (in the source the `1/n` inside `E`'s comprehension is never
evaluated for `n = 0`; in the rational model `1/0 = 0`). -/
theorem C7_empty_record_short_circuit (A : Nat → Nat → ℚ) (eps : ℚ) (m : Nat)
    (heps : 0 < eps) (hm : 1 ≤ m) :
    (∀ i j, build_adjacency_matrix [] i j = 0) ∧
      page_rank_converged 0 A eps m = true ∧
      (∀ i, page_rank 0 A eps m i = 0) := by
  obtain ⟨k, rfl⟩ : ∃ k, m = k + 1 := ⟨m - 1, by omega⟩
  have hzero : l1dist 0 (pr_step 0 A (uniformE 0)) (uniformE 0) < eps := by
    simpa [l1dist] using heps
  refine ⟨fun i j => rfl, ?_, ?_⟩
  · rw [page_rank_converged, pr_loopFlag]
    simp only [if_pos hzero]
  · intro i
    rw [page_rank, pr_loop_succ_break 0 A eps k (uniformE 0) hzero]
    simp [uniformE]

/-- C7 witness: the theorem applied at `eps = 1`, `max_iters = 1`. -/
theorem C7_witness :
    (0:ℚ) < 1 ∧ 1 ≤ 1 ∧
      ((∀ i j, build_adjacency_matrix [] i j = 0) ∧
        page_rank_converged 0 exA1 1 1 = true ∧
        (∀ i, page_rank 0 exA1 1 1 i = 0)) :=
  ⟨by norm_num, le_refl 1,
    C7_empty_record_short_circuit exA1 1 1 (by norm_num) (le_refl 1)⟩

/-- C3 witness: the theorem applied to the two-page record `exPages`,
column 0. -/
theorem C3_witness :
    WellFormedRecord exPages ∧ 1 ≤ exPages.length ∧ 0 < exPages.length ∧
      ∑ i ∈ Finset.range exPages.length, build_adjacency_matrix exPages i 0 = 1 := by
  have hwf : WellFormedRecord exPages := by
    constructor
    · decide
    · decide
  exact ⟨hwf, by norm_num [exPages], by norm_num [exPages],
    C3_every_column_sums_to_one exPages hwf (by norm_num [exPages]) 0
      (by norm_num [exPages])⟩

/-- C4: for every page record `p` of a well-formed crawl record, the filtered
link set is exactly the recorded outgoing links that are page URLs and are
not the source itself; when it is non-empty every target's row in the
source's column holds `1/out_degree`, and when it is empty (in particular
when the page links only to itself or to URLs outside the page set) the
source's entire column — its own row included — holds `1/N` uniformly. -/
theorem C4_per_page_column_weights (pages : List PageRec)
    (hwf : WellFormedRecord pages) (p : PageRec) (hp : p ∈ pages) :
    (∀ x, x ∈ filteredLinks pages p ↔
        x ∈ p.outgoing_links ∧ x ∈ visitedUrls pages ∧ x ≠ p.url) ∧
    (0 < (filteredLinks pages p).length →
      ∀ x ∈ filteredLinks pages p,
        build_adjacency_matrix pages (url_to_index pages x) (url_to_index pages p.url) =
          1 / ((filteredLinks pages p).length : ℚ)) ∧
    ((filteredLinks pages p).length = 0 →
      ∀ i, i < pages.length →
        build_adjacency_matrix pages i (url_to_index pages p.url) =
          1 / (pages.length : ℚ)) := by
  refine ⟨?_, ?_, ?_⟩
  · intro x
    constructor
    · intro hx
      have h := List.mem_filter.1 hx
      have hm := mem_of_mem_filteredLinks pages p x hx
      exact ⟨h.1, hm.1, hm.2⟩
    · rintro ⟨h1, h2, h3⟩
      refine List.mem_filter.2 ⟨h1, ?_⟩
      simp [h2, h3]
  · intro hd x hx
    rw [build_matrix_apply pages hwf.1 p hp]
    simp only [colEntry, if_pos hd]
    rw [if_pos (List.mem_map_of_mem _ hx)]
  · intro hd i hi
    rw [build_matrix_apply pages hwf.1 p hp]
    have hd2 : ¬ 0 < (filteredLinks pages p).length := by omega
    simp only [colEntry, if_neg hd2]
    rw [if_pos hi]

/-- C4 witness: the theorem applied to the first page of `exPages`, which
links to itself, to page `b` and to an out-of-set URL. -/
theorem C4_witness :
    WellFormedRecord exPages ∧
    (⟨"http://e.com/a", ["http://e.com/a", "http://e.com/b", "http://x.org/z"]⟩ : PageRec)
      ∈ exPages ∧
    ((∀ x, x ∈ filteredLinks exPages
          ⟨"http://e.com/a", ["http://e.com/a", "http://e.com/b", "http://x.org/z"]⟩ ↔
        x ∈ ["http://e.com/a", "http://e.com/b", "http://x.org/z"] ∧
          x ∈ visitedUrls exPages ∧ x ≠ "http://e.com/a") ∧
    (0 < (filteredLinks exPages
        ⟨"http://e.com/a", ["http://e.com/a", "http://e.com/b", "http://x.org/z"]⟩).length →
      ∀ x ∈ filteredLinks exPages
          ⟨"http://e.com/a", ["http://e.com/a", "http://e.com/b", "http://x.org/z"]⟩,
        build_adjacency_matrix exPages (url_to_index exPages x)
            (url_to_index exPages "http://e.com/a") =
          1 / ((filteredLinks exPages
            ⟨"http://e.com/a", ["http://e.com/a", "http://e.com/b", "http://x.org/z"]⟩).length : ℚ)) ∧
    ((filteredLinks exPages
        ⟨"http://e.com/a", ["http://e.com/a", "http://e.com/b", "http://x.org/z"]⟩).length = 0 →
      ∀ i, i < exPages.length →
        build_adjacency_matrix exPages i (url_to_index exPages "http://e.com/a") =
          1 / (exPages.length : ℚ))) := by
  have hwf : WellFormedRecord exPages := by
    constructor
    · decide
    · decide
  have hp : (⟨"http://e.com/a", ["http://e.com/a", "http://e.com/b", "http://x.org/z"]⟩ : PageRec)
      ∈ exPages := by decide
  exact ⟨hwf, hp, C4_per_page_column_weights exPages hwf _ hp⟩

/-- C5 (code bug): the claim demands a total classifier that never throws
and classifies every malformed candidate as out-of-scope, but the code
inherits `urlparse`'s `ValueError`: on the malformed candidate `"http://["`
CPython's parser raises `Invalid IPv6 URL`, and `is_valid_url`, having no
exception handler, propagates it instead of returning `False`.  On every
candidate whose parse succeeds the classifier does return exactly the
spec's predicate: scheme `http` or `https` and network authority equal to
the base domain. -/
theorem C5_classifier_raises_on_malformed :
    (∀ base_domain : String,
      is_valid_url "http://[" base_domain = Except.error "Invalid IPv6 URL") ∧
    (∀ (url base_domain : String) (parsed : ParseResult),
      urlparse url = Except.ok parsed →
      (is_valid_url url base_domain = Except.ok true ↔
        ((parsed.scheme = "http" ∨ parsed.scheme = "https") ∧
          parsed.netloc = base_domain))) := by
  constructor
  · intro base_domain
    have hraise : urlparse "http://[" = Except.error "Invalid IPv6 URL" := by rfl
    rw [is_valid_url, hraise]
    rfl
  · intro url base_domain parsed hp
    rw [is_valid_url, hp]
    simp only [Except.map, Except.ok.injEq, Bool.and_eq_true_iff, Bool.or_eq_true,
      beq_iff_eq]
    tauto

/-- C5 witness: the theorem's raising part at a concrete base domain, and
its classification part at a concretely parsed in-scope URL. -/
theorem C5_witness :
    urlparse "http://e.com/a" = Except.ok ⟨"http", "e.com"⟩ ∧
    is_valid_url "http://[" "e.com" = Except.error "Invalid IPv6 URL" ∧
    (is_valid_url "http://e.com/a" "e.com" = Except.ok true ↔
      (((⟨"http", "e.com"⟩ : ParseResult).scheme = "http" ∨
          (⟨"http", "e.com"⟩ : ParseResult).scheme = "https") ∧
        (⟨"http", "e.com"⟩ : ParseResult).netloc = "e.com")) := by
  have hok : urlparse "http://e.com/a" = Except.ok ⟨"http", "e.com"⟩ := by rfl
  exact ⟨hok, C5_classifier_raises_on_malformed.1 "e.com",
    C5_classifier_raises_on_malformed.2 "http://e.com/a" "e.com" _ hok⟩

/-- C8: crawl determinism — two runs of `crawl` with the same seed URL, page
and depth caps and random seed, against extensionally equal mocked link
extractors, produce the same visitation sequence (hence the same visited set
and the same traversal order) and the same recorded link graph. -/
theorem C8_crawl_deterministic (seed_url : String)
    (max_pages max_depth random_seed : Nat)
    (g1 g2 : String → List String) (h : ∀ u, g1 u = g2 u) :
    (crawl seed_url max_pages max_depth random_seed g1).visitedOrder =
      (crawl seed_url max_pages max_depth random_seed g2).visitedOrder ∧
    (crawl seed_url max_pages max_depth random_seed g1).links =
      (crawl seed_url max_pages max_depth random_seed g2).links := by
  have hg : g1 = g2 := funext h
  subst hg
  exact ⟨rfl, rfl⟩

/-- C8 witness: the theorem applied to a concrete seed and an empty mocked
link structure. -/
theorem C8_witness :
    (∀ u : String, (fun _ : String => (["http://e.com/b"] : List String)) u =
        (fun _ : String => (["http://e.com/b"] : List String)) u) ∧
    (crawl "http://e.com/a" 2 1 42 (fun _ => ["http://e.com/b"])).visitedOrder =
      (crawl "http://e.com/a" 2 1 42 (fun _ => ["http://e.com/b"])).visitedOrder ∧
    (crawl "http://e.com/a" 2 1 42 (fun _ => ["http://e.com/b"])).links =
      (crawl "http://e.com/a" 2 1 42 (fun _ => ["http://e.com/b"])).links :=
  ⟨fun _ => rfl,
    C8_crawl_deterministic "http://e.com/a" 2 1 42 _ _ (fun _ => rfl)⟩

/-- C10: with pairwise-distinct page URLs the two index maps returned by the
normalizer are mutual inverses between the page URLs and the indices
`0..N-1`: `index_to_url (url_to_index u) = u` for every page URL `u`, and
`url_to_index (index_to_url i) = i` for every index `i < N`. -/
theorem C10_index_maps_mutual_inverses (pages : List PageRec)
    (hnd : (visitedUrls pages).Nodup) :
    (∀ u ∈ visitedUrls pages,
        index_to_url pages (url_to_index pages u) = some u) ∧
    (∀ i, i < pages.length →
        (index_to_url pages i).map (url_to_index pages) = some i) := by
  constructor
  · intro u hu
    rw [index_to_url, url_to_index]
    exact List.indexOf_get? hu
  · intro i hi
    have hlen : i < (visitedUrls pages).length := by simpa [visitedUrls] using hi
    rw [index_to_url, List.get?_eq_get hlen]
    simp only [Option.map_some']
    rw [url_to_index]
    exact congrArg some (List.get_indexOf hnd ⟨i, hlen⟩)

/-- C10 witness: the theorem applied to the two-page record `exPages`. -/
theorem C10_witness :
    (visitedUrls exPages).Nodup ∧
      ((∀ u ∈ visitedUrls exPages,
          index_to_url exPages (url_to_index exPages u) = some u) ∧
        (∀ i, i < exPages.length →
          (index_to_url exPages i).map (url_to_index exPages) = some i)) := by
  have h : (visitedUrls exPages).Nodup := by decide
  exact ⟨h, C10_index_maps_mutual_inverses exPages h⟩
